import Mathlib

/-!
Verification development for the multi-scale visual autoregressive (VAR)
image-generation code base.

The Python source is shallowly embedded in Lean:

* machine floating-point arithmetic is modelled by exact rational
  arithmetic (`ℚ`); tensors become (nested) lists of rationals;
* the transcendental scalar primitives used by the model (`exp`, `sqrt`,
  `gelu`) are abstracted as parameters (a `Primitives` record), since the
  properties verified here are data-flow properties that hold for every
  choice of those scalar functions;
* `Tensor.detach()` is the identity on forward values (it only cuts the
  autodiff graph), so it is embedded as the identity function `stopgradVal`;
* in-place tensor mutation is made explicit with `StateM` where a claim is
  about the mutation itself;
* the convolutional encoder / decoder bodies of the VQVAE are opaque
  feature transforms in the specification, so they are quantified over as
  arbitrary functions.

Definition names follow the Python names (`get_multi_scale_patches`,
`compute_scale_positions`, `top_k_top_p_filtering`, ...).
-/

/- ----------------------------------------------------------------
   Section 1: scale schedule (src/var/utils.py)
   ---------------------------------------------------------------- -/

/-- Source `utils.get_multi_scale_patches`: `list(range(1, max_patches + 1))`,
the sequence of patch counts 1, 2, ..., max_patches. -/
def get_multi_scale_patches (max_patches : Nat) : List Nat :=
  List.range' 1 max_patches

/-- Loop body of `utils.compute_scale_positions`: iterate over the scales,
appending `cumulative` to `start_positions` and `cumulative + scale*scale`
to `end_positions`, threading the cumulative token count. -/
def scalePosLoop : List Nat → List Nat → List Nat → Nat → List Nat × List Nat
  | [], starts, ends, _ => (starts, ends)
  | s :: rest, starts, ends, cum =>
      scalePosLoop rest (starts ++ [cum]) (ends ++ [cum + s * s]) (cum + s * s)

/-- Source `utils.compute_scale_positions`: start and end offsets of every
scale inside the flattened token sequence. -/
def compute_scale_positions (max_scale : Nat) : List Nat × List Nat :=
  scalePosLoop (get_multi_scale_patches max_scale) [] [] 0

/-- Source `VAR.__init__` line `self.total_seq_len = sum(s * s for s in self.scales)`. -/
def total_seq_len (max_scale : Nat) : Nat :=
  ((get_multi_scale_patches max_scale).map (fun s => s * s)).sum

/-- Sum of the squares of the first `k` scales; closed form of the
`cumulative` counter of `compute_scale_positions` after `k` iterations. -/
def prefSumSq (scales : List Nat) (k : Nat) : Nat :=
  ((scales.take k).map (fun s => s * s)).sum

theorem prefSumSq_zero (scales : List Nat) : prefSumSq scales 0 = 0 := by
  simp [prefSumSq]

theorem prefSumSq_cons (s : Nat) (rest : List Nat) (k : Nat) :
    prefSumSq (s :: rest) (k + 1) = s * s + prefSumSq rest k := by
  simp [prefSumSq]

theorem scalePosLoop_closed (scales : List Nat) (starts ends : List Nat) (cum : Nat) :
    scalePosLoop scales starts ends cum =
      (starts ++ (List.range scales.length).map (fun k => cum + prefSumSq scales k),
       ends ++ (List.range scales.length).map (fun k => cum + prefSumSq scales (k + 1))) := by
  induction scales generalizing starts ends cum with
  | nil => simp [scalePosLoop]
  | cons s rest ih =>
      rw [scalePosLoop, ih]
      simp only [List.length_cons, List.range_succ_eq_map, List.map_cons, List.map_map,
        Prod.mk.injEq]
      constructor
      · rw [List.append_assoc]
        congr 1
        simp only [prefSumSq_zero, Nat.add_zero, List.cons_append, List.nil_append]
        congr 1
        apply List.map_congr_left
        intro k _
        simp only [Function.comp_apply, prefSumSq_cons, Nat.succ_eq_add_one]
        omega
      · rw [List.append_assoc]
        congr 1
        simp only [List.cons_append, List.nil_append]
        have h0 : cum + prefSumSq (s :: rest) (0 + 1) = cum + s * s := by
          simp [prefSumSq]
        rw [h0]
        congr 1
        apply List.map_congr_left
        intro k _
        simp only [Function.comp_apply, prefSumSq_cons, Nat.succ_eq_add_one]
        omega

theorem compute_scale_positions_closed (S : Nat) :
    compute_scale_positions S =
      ((List.range S).map (fun k => prefSumSq (get_multi_scale_patches S) k),
       (List.range S).map (fun k => prefSumSq (get_multi_scale_patches S) (k + 1))) := by
  rw [compute_scale_positions, scalePosLoop_closed]
  simp [get_multi_scale_patches, List.length_range']

theorem starts_getD (S k : Nat) (hk : k < S) :
    (compute_scale_positions S).1.getD k 0 = prefSumSq (get_multi_scale_patches S) k := by
  rw [compute_scale_positions_closed]
  simp [List.getD_eq_getElem?_getD, List.getElem?_map, List.getElem?_range hk]

theorem ends_getD (S k : Nat) (hk : k < S) :
    (compute_scale_positions S).2.getD k 0 = prefSumSq (get_multi_scale_patches S) (k + 1) := by
  rw [compute_scale_positions_closed]
  simp [List.getD_eq_getElem?_getD, List.getElem?_map, List.getElem?_range hk]

theorem scales_getD (S k : Nat) (hk : k < S) :
    (get_multi_scale_patches S).getD k 0 = k + 1 := by
  have hl : k < (List.range' 1 S).length := by simpa [List.length_range'] using hk
  rw [get_multi_scale_patches, List.getD_eq_getElem?_getD, List.getElem?_eq_getElem hl,
    List.getElem_range']
  simp [Nat.add_comm]

theorem prefSumSq_succ (scales : List Nat) (k : Nat) (hk : k < scales.length) :
    prefSumSq scales (k + 1) = prefSumSq scales k + scales.getD k 0 * scales.getD k 0 := by
  have hk' : k < (scales.map (fun s => s * s)).length := by simpa using hk
  unfold prefSumSq
  rw [List.map_take, List.map_take, List.sum_take_succ _ k hk']
  congr 1
  rw [List.getElem_map, List.getD_eq_getElem?_getD, List.getElem?_eq_getElem hk]
  simp

theorem prefSumSq_full (S : Nat) :
    prefSumSq (get_multi_scale_patches S) S = total_seq_len S := by
  unfold prefSumSq total_seq_len
  rw [List.take_of_length_le]
  simp [get_multi_scale_patches, List.length_range']

/-- C2: for every `max_scale = S ≥ 1` the scale schedule enumerates the
scales `1..S`, its intervals tile `[0, total_seq_len)` exactly
(`start_1 = 0`, `start_{k+1} = end_k`, `end_k - start_k = k²` at 0-indexed
position `k-1`, `end_S = total_seq_len = Σ k²`), and concretely
`total_seq_len 4 = 30` and `total_seq_len 8 = 204`. -/
theorem scale_schedule_tiles (S : Nat) (hS : 1 ≤ S) :
    get_multi_scale_patches S = List.range' 1 S ∧
    (compute_scale_positions S).1.getD 0 0 = 0 ∧
    (∀ k, k + 1 < S →
      (compute_scale_positions S).1.getD (k + 1) 0 = (compute_scale_positions S).2.getD k 0) ∧
    (∀ k, k < S →
      (compute_scale_positions S).2.getD k 0 - (compute_scale_positions S).1.getD k 0
        = (k + 1) * (k + 1)) ∧
    (compute_scale_positions S).2.getD (S - 1) 0 = total_seq_len S ∧
    total_seq_len S = ((List.range' 1 S).map (fun k => k * k)).sum ∧
    total_seq_len 4 = 30 ∧ total_seq_len 8 = 204 := by
  have hlen : (get_multi_scale_patches S).length = S := by
    simp [get_multi_scale_patches, List.length_range']
  refine ⟨rfl, ?_, ?_, ?_, ?_, rfl, by decide, by decide⟩
  · rw [starts_getD S 0 hS, prefSumSq_zero]
  · intro k hk
    rw [starts_getD S (k + 1) hk, ends_getD S k (by omega)]
  · intro k hk
    rw [starts_getD S k hk, ends_getD S k hk, prefSumSq_succ _ k (by omega),
      scales_getD S k hk]
    omega
  · have h1 : S - 1 < S := by omega
    rw [ends_getD S (S - 1) h1]
    have h2 : S - 1 + 1 = S := by omega
    rw [h2, prefSumSq_full]

/-- Witness for C2 at the concrete inputs `S = 4` and `S = 8`. -/
theorem scale_schedule_tiles_witness :
    total_seq_len 4 = 30 ∧ total_seq_len 8 = 204 :=
  ⟨(scale_schedule_tiles 4 (by decide)).2.2.2.2.2.2.1,
   (scale_schedule_tiles 8 (by decide)).2.2.2.2.2.2.2⟩

/- ----------------------------------------------------------------
   Section 2: vector operations and the vector quantizer
   (src/var/vqvae.py, class VectorQuantizer)
   ---------------------------------------------------------------- -/

def dotQ (a b : List ℚ) : ℚ := (List.zipWith (fun x y => x * y) a b).sum

def vadd (a b : List ℚ) : List ℚ := List.zipWith (fun x y => x + y) a b

def vsub (a b : List ℚ) : List ℚ := List.zipWith (fun x y => x - y) a b

def sumSq (a : List ℚ) : ℚ := (a.map (fun x => x ^ 2)).sum

/-- Model of `torch.argmin` on a vector: index of the minimum value, first
occurrence on ties (lowest index wins). -/
def argminIdx : List ℚ → Nat
  | [] => 0
  | [_] => 0
  | x :: y :: rest =>
      if x ≤ (y :: rest).getD (argminIdx (y :: rest)) 0 then 0
      else argminIdx (y :: rest) + 1

theorem argminIdx_lt (l : List ℚ) (hl : l ≠ []) : argminIdx l < l.length := by
  induction l with
  | nil => simp at hl
  | cons x xs ih =>
      match xs with
      | [] => simp [argminIdx]
      | y :: rest =>
          rw [argminIdx]
          split
          · simp
          · have := ih (by simp)
            simpa using Nat.succ_lt_succ this

theorem argminIdx_le (l : List ℚ) (j : Nat) (hj : j < l.length) :
    l.getD (argminIdx l) 0 ≤ l.getD j 0 := by
  induction l generalizing j with
  | nil => simp at hj
  | cons x xs ih =>
      match xs with
      | [] =>
          have hj0 : j = 0 := by simp only [List.length_cons, List.length_nil] at hj; omega
          subst hj0
          simp [argminIdx]
      | y :: rest =>
          rw [argminIdx]
          split
          · rename_i hx
            match j with
            | 0 => simp
            | j + 1 =>
                have hj' : j < (y :: rest).length := by simpa using hj
                calc x ≤ (y :: rest).getD (argminIdx (y :: rest)) 0 := hx
                  _ ≤ (y :: rest).getD j 0 := ih j hj'
          · rename_i hx
            push_neg at hx
            match j with
            | 0 =>
                simp only [List.getD_cons_succ, List.getD_cons_zero]
                exact le_of_lt hx
            | j + 1 =>
                have hj' : j < (y :: rest).length := by simpa using hj
                simpa using ih j hj'

theorem argminIdx_first (l : List ℚ) (j : Nat) (hj : j < argminIdx l) :
    l.getD (argminIdx l) 0 < l.getD j 0 := by
  induction l generalizing j with
  | nil => simp [argminIdx] at hj
  | cons x xs ih =>
      match xs with
      | [] => simp [argminIdx] at hj
      | y :: rest =>
          by_cases hx : x ≤ (y :: rest).getD (argminIdx (y :: rest)) 0
          · rw [argminIdx, if_pos hx] at hj
            omega
          · rw [argminIdx, if_neg hx] at hj ⊢
            push_neg at hx
            match j with
            | 0 => simpa using hx
            | j + 1 =>
                have hj' : j < argminIdx (y :: rest) := by omega
                simpa using ih j hj'

/-- Distance expansion used by `VectorQuantizer.forward`:
`sum(x**2) + sum(c**2) - 2 * x·c`. -/
def sqDistE (x c : List ℚ) : ℚ := sumSq x + sumSq c - 2 * dotQ x c

/-- Squared Euclidean distance (the quantity the spec describes). -/
def sqEuclid (x c : List ℚ) : ℚ := (List.zipWith (fun a b => (a - b) ^ 2) x c).sum

theorem sqDistE_eq_sqEuclid (x c : List ℚ) (h : x.length = c.length) :
    sqDistE x c = sqEuclid x c := by
  induction x generalizing c with
  | nil =>
      match c with
      | [] => simp [sqDistE, sqEuclid, sumSq, dotQ]
      | _ :: _ => simp at h
  | cons a as ih =>
      match c with
      | [] => simp at h
      | b :: bs =>
          have h' : as.length = bs.length := by simpa using h
          have := ih bs h'
          simp only [sqDistE, sqEuclid, sumSq, dotQ, List.map_cons, List.sum_cons,
            List.zipWith_cons_cons] at this ⊢
          nlinarith [this]

/-- Source `encoding_indices = torch.argmin(distances, dim=1)` applied per
feature vector, with the distance row of `VectorQuantizer.forward`. -/
def encodingIndices (codebook : List (List ℚ)) (xs : List (List ℚ)) : List Nat :=
  xs.map (fun x => argminIdx (codebook.map (fun c => sqDistE x c)))

/-- Source `quantized = self.embeddings(encoding_indices)`: codebook lookup. -/
def quantizedOf (codebook : List (List ℚ)) (xs : List (List ℚ)) : List (List ℚ) :=
  (encodingIndices codebook xs).map (fun i => codebook.getD i [])

/-- `Tensor.detach()` is the identity on forward values: it only cuts the
autodiff graph, which a value-level embedding does not track. -/
def stopgradVal (v : List ℚ) : List ℚ := v

/-- `F.mse_loss` with mean reduction on flattened-to-one-dimension tensors. -/
def mseQ (a b : List ℚ) : ℚ := (List.zipWith (fun x y => (x - y) ^ 2) a b).sum / a.length

/-- `F.mse_loss` between two lists of feature vectors: mean over all scalar
entries. -/
def mseFlat (a b : List (List ℚ)) : ℚ := mseQ a.flatten b.flatten

/-- Straight-through estimator, source line
`quantized = x + (quantized - x).detach()`. -/
def straightThrough (x q : List ℚ) : List ℚ := vadd x (stopgradVal (vsub q x))

/-- Source `VectorQuantizer.forward` (shape bookkeeping elided: the batch
and spatial dimensions are flattened to one list of feature vectors, as the
source itself does with `flat_x`): returns
`(quantized-with-straight-through, vq_loss, encoding_indices)`. -/
def vectorQuantizerForward (codebook : List (List ℚ)) (commitment_cost : ℚ)
    (xs : List (List ℚ)) : List (List ℚ) × ℚ × List Nat :=
  let enc := encodingIndices codebook xs
  let quantized := quantizedOf codebook xs
  let e_latent_loss := mseFlat (quantized.map stopgradVal) xs
  let q_latent_loss := mseFlat quantized (xs.map stopgradVal)
  let vq_loss := q_latent_loss + commitment_cost * e_latent_loss
  let quantizedST := List.zipWith straightThrough xs quantized
  (quantizedST, vq_loss, enc)

/-- C3: the scalar loss returned by the quantizer equals
`mse(stopgrad(quantized), input) * 1 + mse(quantized, stopgrad(input)) * commitment_cost`.
With `stopgrad` the identity on forward values, the code's
`q_latent_loss + commitment_cost * e_latent_loss` is exactly this quantity. -/
theorem vq_loss_formula (codebook : List (List ℚ)) (commitment_cost : ℚ)
    (xs : List (List ℚ)) :
    (vectorQuantizerForward codebook commitment_cost xs).2.1 =
      mseFlat ((quantizedOf codebook xs).map stopgradVal) xs * 1 +
      mseFlat (quantizedOf codebook xs) (xs.map stopgradVal) * commitment_cost := by
  show mseFlat (quantizedOf codebook xs) (xs.map stopgradVal) +
      commitment_cost * mseFlat ((quantizedOf codebook xs).map stopgradVal) xs = _
  have hid : ∀ (l : List (List ℚ)), l.map stopgradVal = l := by
    intro l
    rw [show stopgradVal = id from rfl, List.map_id]
  simp only [hid]
  ring

theorem getD_map_lt {α β : Type} (f : α → β) (l : List α) (n : Nat) (hn : n < l.length)
    (d : α) (d' : β) : (l.map f).getD n d' = f (l.getD n d) := by
  rw [List.getD_eq_getElem?_getD, List.getElem?_map, List.getElem?_eq_getElem hn,
    List.getD_eq_getElem?_getD, List.getElem?_eq_getElem hn]
  rfl

theorem getD_mem_of_lt {α : Type} (l : List α) (n : Nat) (hn : n < l.length) (d : α) :
    l.getD n d ∈ l := by
  rw [List.getD_eq_getElem?_getD, List.getElem?_eq_getElem hn]
  exact List.getElem_mem hn

/-- C6: the quantizer selects, for each feature vector, the codebook index of
minimum squared Euclidean distance, breaking ties by choosing the lowest
index; and the returned indices are the pure function `encodingIndices` of
the input and the codebook, so repeated calls on identical input and
codebook return identical indices. -/
theorem quantizer_nearest_code (codebook : List (List ℚ)) (commitment_cost : ℚ)
    (xs : List (List ℚ)) (d m : Nat) (hcb : codebook ≠ [])
    (hcbd : ∀ c ∈ codebook, c.length = d) (hxd : ∀ v ∈ xs, v.length = d)
    (hm : m < xs.length) :
    (vectorQuantizerForward codebook commitment_cost xs).2.2.getD m 0 < codebook.length ∧
    (∀ j, j < codebook.length →
      sqEuclid (xs.getD m [])
          (codebook.getD ((vectorQuantizerForward codebook commitment_cost xs).2.2.getD m 0) [])
        ≤ sqEuclid (xs.getD m []) (codebook.getD j [])) ∧
    (∀ j, j < (vectorQuantizerForward codebook commitment_cost xs).2.2.getD m 0 →
      sqEuclid (xs.getD m [])
          (codebook.getD ((vectorQuantizerForward codebook commitment_cost xs).2.2.getD m 0) [])
        < sqEuclid (xs.getD m []) (codebook.getD j [])) ∧
    (vectorQuantizerForward codebook commitment_cost xs).2.2 = encodingIndices codebook xs := by
  have henc : (vectorQuantizerForward codebook commitment_cost xs).2.2
      = encodingIndices codebook xs := rfl
  have hx : xs.getD m [] ∈ xs := getD_mem_of_lt xs m hm []
  have hxlen : (xs.getD m []).length = d := hxd _ hx
  have hidx : (encodingIndices codebook xs).getD m 0
      = argminIdx (codebook.map (fun c => sqDistE (xs.getD m []) c)) := by
    unfold encodingIndices
    exact getD_map_lt _ xs m hm [] 0
  have hds_len : (codebook.map (fun c => sqDistE (xs.getD m []) c)).length
      = codebook.length := by simp
  have hds_ne : codebook.map (fun c => sqDistE (xs.getD m []) c) ≠ [] := by
    simpa using hcb
  have harg_lt : argminIdx (codebook.map (fun c => sqDistE (xs.getD m []) c))
      < codebook.length := by
    have h := argminIdx_lt _ hds_ne
    rwa [hds_len] at h
  have hds_at : ∀ j, j < codebook.length →
      (codebook.map (fun c => sqDistE (xs.getD m []) c)).getD j 0
        = sqEuclid (xs.getD m []) (codebook.getD j []) := by
    intro j hj
    rw [getD_map_lt _ codebook j hj [] 0]
    apply sqDistE_eq_sqEuclid
    rw [hxlen, hcbd _ (getD_mem_of_lt codebook j hj [])]
  refine ⟨?_, ?_, ?_, henc⟩
  · rw [henc, hidx]
    exact harg_lt
  · intro j hj
    rw [henc, hidx, ← hds_at _ harg_lt, ← hds_at j hj]
    exact argminIdx_le _ j (by rwa [hds_len])
  · intro j hj
    rw [henc, hidx] at hj ⊢
    have hjcb : j < codebook.length := lt_trans hj harg_lt
    rw [← hds_at _ harg_lt, ← hds_at j hjcb]
    exact argminIdx_first _ j hj

/-- Witness for C6 at a concrete codebook `[[0], [1]]` and input `[[3/4]]`. -/
theorem quantizer_nearest_code_witness :
    ([[(0 : ℚ)], [(1 : ℚ)]] : List (List ℚ)) ≠ [] ∧
    (∀ c ∈ ([[(0 : ℚ)], [(1 : ℚ)]] : List (List ℚ)), c.length = 1) ∧
    (∀ v ∈ ([[(3 : ℚ)/4]] : List (List ℚ)), v.length = 1) ∧
    0 < ([[(3 : ℚ)/4]] : List (List ℚ)).length ∧
    (vectorQuantizerForward [[(0 : ℚ)], [(1 : ℚ)]] (1/4) [[(3 : ℚ)/4]]).2.2.getD 0 0
      < ([[(0 : ℚ)], [(1 : ℚ)]] : List (List ℚ)).length :=
  ⟨by decide, by decide, by decide, by decide,
   (quantizer_nearest_code [[(0 : ℚ)], [(1 : ℚ)]] (1/4) [[(3 : ℚ)/4]] 1 0
      (by decide) (by decide) (by decide) (by decide)).1⟩

/- ----------------------------------------------------------------
   Section 3: VQVAE encode / decode (src/var/vqvae.py, class VQVAE).
   The convolutional encoder and decoder bodies are opaque feature
   transforms in the specification, so they are arbitrary functions here.
   ---------------------------------------------------------------- -/

/-- Source `VQVAE.encode`: run the (opaque) encoder, quantize, return the
quantized grid and the encoding indices. -/
def vqvaeEncode (encoder : List ℚ → List (List ℚ)) (codebook : List (List ℚ))
    (commitment_cost : ℚ) (x : List ℚ) : List (List ℚ) × List Nat :=
  let z := encoder x
  let r := vectorQuantizerForward codebook commitment_cost z
  (r.1, r.2.2)

/-- Source `VQVAE.decode`: the (opaque) decoder applied to the quantized grid. -/
def vqvaeDecode (decoder : List (List ℚ) → List ℚ) (quantized : List (List ℚ)) : List ℚ :=
  decoder quantized

/-- Source `VQVAE.decode_from_indices`: direct codebook lookup
(`self.quantizer.embeddings(indices)`) followed by the shared decoder. -/
def decode_from_indices (decoder : List (List ℚ) → List ℚ) (codebook : List (List ℚ))
    (indices : List Nat) : List ℚ :=
  decoder (indices.map (fun i => codebook.getD i []))

theorem straightThrough_eq : ∀ (x q : List ℚ), x.length = q.length → straightThrough x q = q
  | [], [], _ => rfl
  | [], _ :: _, h => by simp at h
  | _ :: _, [], h => by simp at h
  | a :: as, b :: bs, h => by
      have h' : as.length = bs.length := by simpa using h
      have ihr := straightThrough_eq as bs h'
      unfold straightThrough stopgradVal vadd vsub at ihr ⊢
      simp only [List.zipWith_cons_cons]
      congr 1
      ring

theorem quantizedOf_mem_len (codebook : List (List ℚ)) (d : Nat) (hcb : codebook ≠ [])
    (hcbd : ∀ c ∈ codebook, c.length = d) (z : List (List ℚ)) :
    ∀ q ∈ quantizedOf codebook z, q.length = d := by
  intro q hq
  unfold quantizedOf at hq
  rw [List.mem_map] at hq
  obtain ⟨i, hi, rfl⟩ := hq
  unfold encodingIndices at hi
  rw [List.mem_map] at hi
  obtain ⟨v, _, rfl⟩ := hi
  have hne : codebook.map (fun c => sqDistE v c) ≠ [] := by simpa using hcb
  have hlt : argminIdx (codebook.map (fun c => sqDistE v c)) < codebook.length := by
    have h := argminIdx_lt _ hne
    simpa using h
  exact hcbd _ (getD_mem_of_lt codebook _ hlt [])

theorem zipWith_straightThrough_eq : ∀ (a b : List (List ℚ)) (d : Nat),
    (∀ v ∈ a, v.length = d) → (∀ v ∈ b, v.length = d) → a.length = b.length →
    List.zipWith straightThrough a b = b
  | [], [], _, _, _, _ => rfl
  | [], _ :: _, _, _, _, h => by simp at h
  | _ :: _, [], _, _, _, h => by simp at h
  | x :: xs, q :: qs, d, ha, hb, h => by
      have h' : xs.length = qs.length := by simpa using h
      simp only [List.zipWith_cons_cons]
      congr 1
      · exact straightThrough_eq x q (by rw [ha x (by simp), hb q (by simp)])
      · exact zipWith_straightThrough_eq xs qs d (fun v hv => ha v (by simp [hv]))
          (fun v hv => hb v (by simp [hv])) h'

/-- C4: `decode` of the quantized output of `encode` equals
`decode_from_indices` of the encoding indices of `encode`: the
straight-through output `x + (quantized - x)` is value-identical (in exact
arithmetic) to the codebook lookup that `decode_from_indices` performs, and
both then pass through the same decoder. -/
theorem decode_roundtrip (encoder : List ℚ → List (List ℚ))
    (decoder : List (List ℚ) → List ℚ) (codebook : List (List ℚ))
    (commitment_cost : ℚ) (x : List ℚ) (d : Nat) (hcb : codebook ≠ [])
    (hcbd : ∀ c ∈ codebook, c.length = d) (hzd : ∀ v ∈ encoder x, v.length = d) :
    vqvaeDecode decoder (vqvaeEncode encoder codebook commitment_cost x).1 =
      decode_from_indices decoder codebook
        (vqvaeEncode encoder codebook commitment_cost x).2 := by
  unfold vqvaeDecode vqvaeEncode decode_from_indices
  congr 1
  show List.zipWith straightThrough (encoder x) (quantizedOf codebook (encoder x))
      = (encodingIndices codebook (encoder x)).map (fun i => codebook.getD i [])
  rw [show (encodingIndices codebook (encoder x)).map (fun i => codebook.getD i [])
      = quantizedOf codebook (encoder x) from rfl]
  apply zipWith_straightThrough_eq _ _ d hzd
    (quantizedOf_mem_len codebook d hcb hcbd (encoder x))
  unfold quantizedOf encodingIndices
  simp

/-- Witness for C4 at a concrete encoder, decoder, codebook and image. -/
theorem decode_roundtrip_witness :
    ([[(0 : ℚ)]] : List (List ℚ)) ≠ [] ∧
    vqvaeDecode List.flatten (vqvaeEncode (fun _ => [[(1 : ℚ)]]) [[(0 : ℚ)]] (1/4) []).1
      = decode_from_indices List.flatten [[(0 : ℚ)]]
          (vqvaeEncode (fun _ => [[(1 : ℚ)]]) [[(0 : ℚ)]] (1/4) []).2 :=
  ⟨by decide, decode_roundtrip (fun _ => [[(1 : ℚ)]]) List.flatten [[(0 : ℚ)]] (1/4) [] 1
      (by decide) (by decide) (by decide)⟩

/- ----------------------------------------------------------------
   Section 4: top-k / top-p filtering (utils.top_k_top_p_filtering)
   ---------------------------------------------------------------- -/

/-- One entry of the logits buffer: `none` models the filter value
(negative infinity) that the source writes when it removes a token;
finite logits are `some q`. -/
abbrev QVal := Option ℚ

/-- Order on buffer entries agreeing with the float order, with the filter
value below every finite value. -/
def qle : QVal → QVal → Prop
  | none, _ => True
  | some _, none => False
  | some x, some y => x ≤ y

/-- Strict order on buffer entries (the comparison `logits < threshold`
performed by the source, where negative infinity is not below itself). -/
def qlt : QVal → QVal → Prop
  | none, none => False
  | none, some _ => True
  | some _, none => False
  | some x, some y => x < y

instance : ∀ a b : QVal, Decidable (qle a b)
  | none, _ => isTrue trivial
  | some _, none => isFalse (fun h => h)
  | some x, some y => inferInstanceAs (Decidable (x ≤ y))

instance : ∀ a b : QVal, Decidable (qlt a b)
  | none, none => isFalse (fun h => h)
  | none, some _ => isTrue trivial
  | some _, none => isFalse (fun h => h)
  | some x, some y => inferInstanceAs (Decidable (x < y))

theorem qle_total (a b : QVal) : qle a b ∨ qle b a := by
  cases a <;> cases b <;> simp [qle]
  exact le_total _ _

theorem qle_trans (a b c : QVal) : qle a b → qle b c → qle a c := by
  cases a <;> cases b <;> cases c <;> simp [qle]
  exact le_trans

theorem qlt_irrefl (a : QVal) : ¬ qlt a a := by
  cases a <;> simp [qlt]

/-- Index permutation of `torch.sort(logits, descending=True)`: the indices
of the buffer sorted by decreasing value. -/
def argsortDesc (l : List QVal) : List Nat :=
  List.insertionSort (fun i j => qle (l.getD j none) (l.getD i none)) (List.range l.length)

/-- The k-th largest entry of the buffer,
`torch.topk(logits, top_k)[0][..., -1]`. -/
def topKThreshold (l : List QVal) (top_k : Nat) : QVal :=
  ((argsortDesc l).map (fun i => l.getD i none)).getD (top_k - 1) none

/-- Source top-k branch: with `top_k > 0`, every entry strictly below the
k-th largest entry is overwritten with the filter value; `top_k = 0`
disables the branch. -/
def applyTopK (l : List QVal) (top_k : Nat) : List QVal :=
  if 0 < top_k then
    l.map (fun x => if qlt x (topKThreshold l top_k) then none else x)
  else l

/-- `exp` over a buffer entry: the filter value (negative infinity) has
exponential zero, as in float softmax. -/
def expVal (qexp : ℚ → ℚ) : QVal → ℚ
  | none => 0
  | some q => qexp q

/-- `torch.softmax` over the sorted buffer. -/
def softmaxVals (qexp : ℚ → ℚ) (l : List QVal) : List ℚ :=
  let es := l.map (expVal qexp)
  es.map (fun e => e / es.sum)

/-- `torch.cumsum` along the last dimension. -/
def cumsum (l : List ℚ) : List ℚ :=
  (List.range l.length).map (fun i => (l.take (i + 1)).sum)

/-- `Tensor.scatter(1, idx, vals)`: write `vals[j]` into position `idx[j]`
of a copy of `base`. -/
def scatterWrite (base : List Bool) (idx : List Nat) (vals : List Bool) : List Bool :=
  (idx.zip vals).foldl (fun acc iv => acc.set iv.1 iv.2) base

/-- The shift of the removal mask
(`sorted_indices_to_remove[..., 1:] = sorted_indices_to_remove[..., :-1]`,
`sorted_indices_to_remove[..., 0] = 0`): the first sorted entry is always
kept. -/
def shiftMask (mask : List Bool) : List Bool :=
  match mask with
  | [] => []
  | _ :: _ => false :: mask.dropLast

/-- Removal mask of the top-p branch in sorted order: cumulative softmax
probability above `top_p`, shifted right by one. -/
def topPShiftedMask (qexp : ℚ → ℚ) (l : List QVal) (top_p : ℚ) : List Bool :=
  shiftMask
    ((cumsum (softmaxVals qexp ((argsortDesc l).map (fun i => l.getD i none)))).map
      (fun c => decide (top_p < c)))

/-- The removal mask scattered back to original indexing
(`sorted_indices_to_remove.scatter(1, sorted_indices, sorted_indices_to_remove)`). -/
def topPRemoveMask (qexp : ℚ → ℚ) (l : List QVal) (top_p : ℚ) : List Bool :=
  scatterWrite (topPShiftedMask qexp l top_p) (argsortDesc l) (topPShiftedMask qexp l top_p)

/-- Source top-p (nucleus) branch, active when `top_p < 1.0`: sort
descending, take cumulative softmax probabilities, mark entries whose
cumulative probability exceeds `top_p`, shift the mask right by one to keep
the first entry above the threshold, scatter the mask back to original
indexing, and overwrite marked entries with the filter value. -/
def applyTopP (qexp : ℚ → ℚ) (l : List QVal) (top_p : ℚ) : List QVal :=
  if top_p < 1 then
    (List.range l.length).map
      (fun i => if (topPRemoveMask qexp l top_p).getD i false then none else l.getD i none)
  else l

/-- Source `utils.top_k_top_p_filtering` at value level: top-k filtering
followed by top-p filtering on a buffer of finite logits. -/
def top_k_top_p_filtering (qexp : ℚ → ℚ) (logits : List ℚ) (top_k : Nat) (top_p : ℚ) :
    List QVal :=
  applyTopP qexp (applyTopK (logits.map some) top_k) top_p

theorem length_argsortDesc (l : List QVal) : (argsortDesc l).length = l.length := by
  unfold argsortDesc
  rw [List.length_insertionSort, List.length_range]

theorem mem_argsortDesc (l : List QVal) (i : Nat) : i ∈ argsortDesc l ↔ i < l.length := by
  unfold argsortDesc
  rw [(List.perm_insertionSort _ _).mem_iff, List.mem_range]

theorem nodup_argsortDesc (l : List QVal) : (argsortDesc l).Nodup := by
  unfold argsortDesc
  exact ((List.perm_insertionSort _ _).nodup_iff).mpr (List.nodup_range _)

theorem argsortDesc_sorted (l : List QVal) :
    List.Sorted (fun i j => qle (l.getD j none) (l.getD i none)) (argsortDesc l) := by
  haveI : IsTotal Nat (fun i j => qle (l.getD j none) (l.getD i none)) :=
    ⟨fun i j => (qle_total (l.getD i none) (l.getD j none)).symm⟩
  haveI : IsTrans Nat (fun i j => qle (l.getD j none) (l.getD i none)) :=
    ⟨fun a b c hab hbc => qle_trans _ _ _ hbc hab⟩
  exact List.sorted_insertionSort _ _

theorem argsortDesc_head_ge (l : List QVal) (p0 : Nat) (ptail : List Nat)
    (h : argsortDesc l = p0 :: ptail) (j : Nat) (hj : j ∈ ptail) :
    qle (l.getD j none) (l.getD p0 none) := by
  have hs := argsortDesc_sorted l
  rw [h] at hs
  exact (List.sorted_cons.mp hs).1 j hj

theorem length_applyTopK (l : List QVal) (top_k : Nat) :
    (applyTopK l top_k).length = l.length := by
  unfold applyTopK
  split <;> simp

theorem length_applyTopP (qexp : ℚ → ℚ) (l : List QVal) (top_p : ℚ) :
    (applyTopP qexp l top_p).length = l.length := by
  unfold applyTopP
  split <;> simp

theorem applyTopK_pos (l : List QVal) (top_k : Nat) (h : 0 < top_k) :
    applyTopK l top_k
      = l.map (fun x => if qlt x (topKThreshold l top_k) then none else x) := by
  unfold applyTopK
  rw [if_pos h]

theorem applyTopK_neg (l : List QVal) (top_k : Nat) (h : ¬ 0 < top_k) :
    applyTopK l top_k = l := by
  unfold applyTopK
  rw [if_neg h]

theorem applyTopP_pos (qexp : ℚ → ℚ) (l : List QVal) (top_p : ℚ) (h : top_p < 1) :
    applyTopP qexp l top_p = (List.range l.length).map
      (fun i => if (topPRemoveMask qexp l top_p).getD i false then none
                else l.getD i none) := by
  unfold applyTopP
  rw [if_pos h]

theorem applyTopP_neg (qexp : ℚ → ℚ) (l : List QVal) (top_p : ℚ) (h : ¬ top_p < 1) :
    applyTopP qexp l top_p = l := by
  unfold applyTopP
  rw [if_neg h]

theorem applyTopK_survivor (logits : List ℚ) (top_k : Nat) (hne : logits ≠ [])
    (hk : top_k ≤ logits.length) :
    ∃ s, s < logits.length ∧ (applyTopK (logits.map some) top_k).getD s none ≠ none := by
  have hlen : (logits.map some).length = logits.length := by simp
  have hlen0 : 0 < logits.length := by
    cases logits with
    | nil => simp at hne
    | cons a as => simp
  by_cases h0 : 0 < top_k
  · -- the threshold value itself is an entry of the buffer and survives
    have hk1 : top_k - 1 < (argsortDesc (logits.map some)).length := by
      rw [length_argsortDesc, hlen]; omega
    have hj0lt : (argsortDesc (logits.map some)).getD (top_k - 1) 0 < logits.length := by
      have hmem : (argsortDesc (logits.map some)).getD (top_k - 1) 0
          ∈ argsortDesc (logits.map some) := getD_mem_of_lt _ _ hk1 0
      have := (mem_argsortDesc (logits.map some) _).mp hmem
      omega
    have hthr : topKThreshold (logits.map some) top_k
        = (logits.map some).getD ((argsortDesc (logits.map some)).getD (top_k - 1) 0) none := by
      unfold topKThreshold
      rw [getD_map_lt _ _ _ hk1 0 none]
    refine ⟨(argsortDesc (logits.map some)).getD (top_k - 1) 0, hj0lt, ?_⟩
    rw [applyTopK_pos _ _ h0, getD_map_lt _ (logits.map some) _ (by omega) none none,
      ← hthr, if_neg (qlt_irrefl _), hthr, getD_map_lt _ logits _ hj0lt 0 none]
    simp
  · refine ⟨0, hlen0, ?_⟩
    rw [applyTopK_neg _ _ h0, getD_map_lt _ logits 0 hlen0 0 none]
    simp

theorem foldl_set_untouched (pairs : List (Nat × Bool)) (base : List Bool) (i : Nat)
    (h : ∀ pv ∈ pairs, pv.1 ≠ i) :
    (pairs.foldl (fun acc iv => acc.set iv.1 iv.2) base).getD i false
      = base.getD i false := by
  induction pairs generalizing base with
  | nil => rfl
  | cons pv rest ih =>
      rw [List.foldl_cons, ih _ (fun q hq => h q (List.mem_cons_of_mem _ hq)),
        List.getD_eq_getElem?_getD, List.getElem?_set_ne (h pv (List.mem_cons_self _ _)),
        ← List.getD_eq_getElem?_getD]

theorem scatterWrite_head (rs : List Bool) (p0 : Nat) (ptail : List Nat)
    (hnodup : (p0 :: ptail).Nodup) (hp0 : p0 < rs.length) :
    (scatterWrite rs (p0 :: ptail) rs).getD p0 false = rs.getD 0 false := by
  match rs, hp0 with
  | r0 :: rtail, hp0 =>
      unfold scatterWrite
      simp only [List.zip_cons_cons, List.foldl_cons]
      rw [foldl_set_untouched]
      · rw [List.getD_eq_getElem?_getD, List.getElem?_set]
        have hp0' : p0 < rtail.length + 1 := by simpa using hp0
        simp [hp0']
      · intro pv hpv
        have hmem := (List.of_mem_zip hpv).1
        have hnot : p0 ∉ ptail := (List.nodup_cons.mp hnodup).1
        intro heq
        exact hnot (heq ▸ hmem)

theorem topPShiftedMask_head (qexp : ℚ → ℚ) (l : List QVal) (top_p : ℚ)
    (hl : l ≠ []) : (topPShiftedMask qexp l top_p).getD 0 false = false := by
  unfold topPShiftedMask
  have hlen : 0 < (argsortDesc l).length := by
    rw [length_argsortDesc]
    cases l with
    | nil => simp at hl
    | cons a as => simp
  have : ∃ c cs, (cumsum (softmaxVals qexp ((argsortDesc l).map (fun i => l.getD i none)))).map
      (fun c => decide (top_p < c)) = c :: cs := by
    have hlen2 : 0 < ((cumsum (softmaxVals qexp
        ((argsortDesc l).map (fun i => l.getD i none)))).map
          (fun c => decide (top_p < c))).length := by
      simp only [List.length_map]
      unfold cumsum softmaxVals
      simpa using hlen
    match hm : (cumsum (softmaxVals qexp ((argsortDesc l).map (fun i => l.getD i none)))).map
        (fun c => decide (top_p < c)), hlen2 with
    | c :: cs, _ => exact ⟨c, cs, rfl⟩
  obtain ⟨c, cs, hc⟩ := this
  rw [hc]
  unfold shiftMask
  simp

theorem topPShiftedMask_length (qexp : ℚ → ℚ) (l : List QVal) (top_p : ℚ) :
    (topPShiftedMask qexp l top_p).length = l.length := by
  have hcum : ((cumsum (softmaxVals qexp ((argsortDesc l).map (fun i => l.getD i none)))).map
      (fun c => decide (top_p < c))).length = l.length := by
    simp [cumsum, softmaxVals, length_argsortDesc]
  unfold topPShiftedMask shiftMask
  split
  · rename_i heq
    rw [heq] at hcum
    exact hcum
  · rename_i b bs heq
    rw [heq] at hcum
    rw [heq]
    simp only [List.length_cons, List.length_dropLast] at hcum ⊢
    omega

theorem applyTopP_survivor (qexp : ℚ → ℚ) (l : List QVal) (top_p : ℚ)
    (hs : ∃ s, s < l.length ∧ l.getD s none ≠ none) :
    ∃ i, i < l.length ∧ (applyTopP qexp l top_p).getD i none ≠ none := by
  obtain ⟨s, hslt, hsval⟩ := hs
  by_cases hp : top_p < 1
  case neg =>
      refine ⟨s, hslt, ?_⟩
      rw [applyTopP_neg _ _ _ hp]
      exact hsval
  case pos =>
      have hlne : l ≠ [] := by
        intro h
        rw [h] at hslt
        simp at hslt
      have hplen : (argsortDesc l).length = l.length := length_argsortDesc l
      obtain ⟨p0, ptail, hperm⟩ : ∃ p0 ptail, argsortDesc l = p0 :: ptail := by
        match hap : argsortDesc l with
        | [] =>
            rw [hap] at hplen
            cases l with
            | nil => simp at hlne
            | cons a as => simp at hplen
        | a :: b => exact ⟨a, b, rfl⟩
      have hp0lt : p0 < l.length := by
        have : p0 ∈ argsortDesc l := by
          rw [hperm]
          exact List.mem_cons_self _ _
        exact (mem_argsortDesc l p0).mp this
      -- the head of the descending sort holds a finite value
      have hhead : l.getD p0 none ≠ none := by
        have hsmem : s ∈ argsortDesc l := (mem_argsortDesc l s).mpr hslt
        rw [hperm] at hsmem
        rcases List.mem_cons.mp hsmem with heq | hmemtail
        · rw [← heq]
          exact hsval
        · have hge := argsortDesc_head_ge l p0 ptail hperm s hmemtail
          match hv : l.getD s none, hw : l.getD p0 none with
          | none, _ => exact absurd hv hsval
          | some v, none =>
              rw [hv, hw] at hge
              exact absurd hge (by simp [qle])
          | some v, some w => simp
      -- the remove mask keeps the head of the sort
      have hmask : (topPRemoveMask qexp l top_p).getD p0 false = false := by
        unfold topPRemoveMask
        rw [hperm]
        have hnodup : (p0 :: ptail).Nodup := by
          rw [← hperm]
          exact nodup_argsortDesc l
        have hlenmask : p0 < (topPShiftedMask qexp l top_p).length := by
          rw [topPShiftedMask_length]
          exact hp0lt
        rw [scatterWrite_head _ _ _ hnodup hlenmask]
        exact topPShiftedMask_head qexp l top_p hlne
      refine ⟨p0, hp0lt, ?_⟩
      rw [applyTopP_pos _ _ _ hp,
        getD_map_lt _ (List.range l.length) p0 (by simpa using hp0lt) 0 none]
      have hr : (List.range l.length).getD p0 0 = p0 := by
        rw [List.getD_eq_getElem?_getD, List.getElem?_range hp0lt]
        rfl
      rw [hr, hmask]
      simp only [Bool.false_eq_true, if_false]
      exact hhead

/-- C5: for every nonempty logits vector, every `top_k` that is `0`
(disabling the filter) or in `[1, vocab_size]`, and every `top_p` in
`(0, 1]`, top-k filtering followed by top-p filtering leaves at least one
entry not set to the filter value (negative infinity): the
all-entries-eliminated degeneracy is unreachable. -/
theorem filtering_leaves_survivor (qexp : ℚ → ℚ) (logits : List ℚ) (top_k : Nat)
    (top_p : ℚ) (hne : logits ≠ [])
    (hk : top_k = 0 ∨ (1 ≤ top_k ∧ top_k ≤ logits.length))
    (hp0 : 0 < top_p) (hp1 : top_p ≤ 1) :
    ∃ i, i < logits.length ∧
      (top_k_top_p_filtering qexp logits top_k top_p).getD i none ≠ none := by
  have hkle : top_k ≤ logits.length := by
    rcases hk with h | ⟨_, h⟩
    · omega
    · exact h
  have h1 := applyTopK_survivor logits top_k hne hkle
  have hlen : (applyTopK (logits.map some) top_k).length = logits.length := by
    rw [length_applyTopK]
    simp
  unfold top_k_top_p_filtering
  have h2 := applyTopP_survivor qexp (applyTopK (logits.map some) top_k) top_p
    (by rw [hlen]; exact h1)
  rw [hlen] at h2
  exact h2

/-- Witness for C5 at concrete logits `[1, 2, 3]`, `top_k = 2`,
`top_p = 1/2`, with `qexp` the identity. -/
theorem filtering_leaves_survivor_witness :
    ([(1 : ℚ), 2, 3] ≠ []) ∧
    ((2 : Nat) = 0 ∨ (1 ≤ 2 ∧ 2 ≤ [(1 : ℚ), 2, 3].length)) ∧
    (0 : ℚ) < 1/2 ∧ (1 : ℚ)/2 ≤ 1 ∧
    (∃ i, i < [(1 : ℚ), 2, 3].length ∧
      (top_k_top_p_filtering (fun q => q) [(1 : ℚ), 2, 3] 2 (1/2)).getD i none ≠ none) :=
  ⟨by simp, by norm_num, by norm_num, by norm_num,
   filtering_leaves_survivor (fun q => q) [(1 : ℚ), 2, 3] 2 (1/2)
     (by simp) (by norm_num) (by norm_num) (by norm_num)⟩

/- ----------------------------------------------------------------
   Section 5: in-place mutation of the logits buffer, the generation-step
   sampling preparation, and the VAR constructor
   (src/var/utils.py, src/var/var_model.py)
   ---------------------------------------------------------------- -/

/-- Source `top_k_top_p_filtering` as an explicit state transformer over
the caller's logits buffer: both filter branches assign into the buffer in
place (`logits[indices_to_remove] = filter_value`), and `return logits`
returns that same buffer, so the returned value is the post-mutation
buffer. -/
def topKTopPInPlace (qexp : ℚ → ℚ) (top_k : Nat) (top_p : ℚ) :
    StateM (List QVal) (List QVal) := do
  modify (fun logits => applyTopK logits top_k)
  modify (fun logits => applyTopP qexp logits top_p)
  get

/-- C10 (implicit frame effect): `top_k_top_p_filtering` mutates the
caller's logits tensor in place. For every buffer the returned value is the
buffer's post-call state; and at a concrete input with `top_k = 1` the
post-call state differs from the original contents, so the argument after
the call equals the returned value rather than its original value. -/
theorem filtering_mutates_in_place :
    (∀ (qexp : ℚ → ℚ) (top_k : Nat) (top_p : ℚ) (buf : List QVal),
      (Id.run ((topKTopPInPlace qexp top_k top_p).run buf)).1
        = (Id.run ((topKTopPInPlace qexp top_k top_p).run buf)).2) ∧
    (Id.run ((topKTopPInPlace (fun q => q) 1 1).run [some 0, some 1])).2
      ≠ [some 0, some 1] := by
  constructor
  · intro qexp top_k top_p buf
    rfl
  · decide

/-- Source `VAR.generate`, the per-step logits preparation (lines
`logits = logits / temperature` followed by
`filtered_logits = top_k_top_p_filtering(logits, top_k=top_k, top_p=top_p)`).
The source performs no validation of `temperature`; the `Except` result
type models the possibility of an error being raised at this step, and the
body never produces one. -/
def generate_step_logits (qexp : ℚ → ℚ) (logits : List ℚ) (temperature : ℚ)
    (top_k : Nat) (top_p : ℚ) : Except String (List QVal) :=
  Except.ok (top_k_top_p_filtering qexp (logits.map (fun x => x / temperature)) top_k top_p)

/-- Counterexample for C8: calling the generation sampling step with
`temperature = -1` is not fatal — the step succeeds, silently producing the
sign-flipped logits (here with `top_k = 0` and `top_p = 1`, no further
filtering). -/
theorem generate_negative_temperature_cex :
    generate_step_logits (fun q => q) [(1 : ℚ), 2] (-1) 0 1
      = Except.ok [some (-1), some (-2)] := by
  unfold generate_step_logits top_k_top_p_filtering
  rw [applyTopK_neg _ _ (by omega), applyTopP_neg _ _ _ (by norm_num)]
  norm_num

/-- C8 amended: `VAR.generate` performs no validation of `temperature`.
For every negative temperature the sampling step succeeds (no error is
surfaced), returning the filtering of the logits divided by the negative
temperature. (At `temperature = 0` the float code divides by zero,
producing non-finite values rather than an immediate explicit error; exact
arithmetic cannot model that case faithfully, so it is left out.) -/
theorem generate_no_temperature_check (qexp : ℚ → ℚ) (logits : List ℚ)
    (temperature : ℚ) (top_k : Nat) (top_p : ℚ) (ht : temperature < 0) :
    generate_step_logits qexp logits temperature top_k top_p
      = Except.ok (top_k_top_p_filtering qexp
          (logits.map (fun x => x / temperature)) top_k top_p) := rfl

/-- Witness for the amended C8 at `temperature = -1`. -/
theorem generate_no_temperature_check_witness :
    ((-1 : ℚ) < 0) ∧
    generate_step_logits (fun q => q) [(1 : ℚ)] (-1) 0 1
      = Except.ok (top_k_top_p_filtering (fun q => q)
          ([(1 : ℚ)].map (fun x => x / (-1))) 0 1) :=
  ⟨by norm_num, generate_no_temperature_check (fun q => q) [(1 : ℚ)] (-1) 0 1 (by norm_num)⟩

/-- Configuration computed by `VAR.__init__` (the part relevant to the
schedule): stored hyperparameters, the scale list and the total sequence
length. -/
structure VARConfig where
  vocab_size : Nat
  d_model : Nat
  n_layers : Nat
  n_heads : Nat
  d_ff : Nat
  max_scale : Nat
  num_classes : Nat
  scales : List Nat
  seqLen : Nat
deriving DecidableEq

/-- Source `VAR.__init__`: stores the hyperparameters, computes
`self.scales = get_multi_scale_patches(max_scale)` and
`self.total_seq_len = sum(s*s for s in self.scales)`, and allocates the
parameter tensors. The body contains no validation of `max_scale`
whatsoever; the `Except` result type models the possibility of a
constructor error being raised, and no input produces one. -/
def VAR_init (vocab_size d_model n_layers n_heads d_ff max_scale num_classes : Nat) :
    Except String VARConfig :=
  Except.ok
    ⟨vocab_size, d_model, n_layers, n_heads, d_ff, max_scale, num_classes,
     get_multi_scale_patches max_scale, total_seq_len max_scale⟩

/-- Counterexample for C7: constructing the model with `max_scale = 0` (and
otherwise the source's default hyperparameters) is not fatal — the
constructor succeeds, returning a configuration with an empty scale list
and `total_seq_len = 0`. -/
theorem var_init_zero_scale_cex :
    VAR_init 4096 768 12 12 3072 0 1000
      = Except.ok ⟨4096, 768, 12, 12, 3072, 0, 1000, [], 0⟩ := rfl

/-- C7 amended: construction with `max_scale = 0` is silently accepted for
every choice of the other hyperparameters: `get_multi_scale_patches 0`
yields the empty schedule, `total_seq_len 0 = 0`, and `VAR.__init__`
completes without surfacing any error. -/
theorem var_init_accepts_zero_scale (vocab_size d_model n_layers n_heads d_ff
    num_classes : Nat) :
    VAR_init vocab_size d_model n_layers n_heads d_ff 0 num_classes
      = Except.ok
          ⟨vocab_size, d_model, n_layers, n_heads, d_ff, 0, num_classes, [], 0⟩ := rfl

/- ----------------------------------------------------------------
   Section 6: the VAR sequence model (src/var/var_model.py).
   Dropout is inactive (eval mode / p = 0), as the causality claim
   stipulates; the scalar primitives exp, sqrt, gelu are abstracted.
   ---------------------------------------------------------------- -/

/-- The scalar transcendental primitives of the model (float `exp`,
`sqrt`, `gelu`) abstracted as rational functions: the data-flow properties
proved below hold for every choice of them. -/
structure Primitives where
  qexp : ℚ → ℚ
  qsqrt : ℚ → ℚ
  qgelu : ℚ → ℚ

def matVec (m : List (List ℚ)) (v : List ℚ) : List ℚ := m.map (fun r => dotQ r v)

/-- `nn.Linear`: weight matrix applied to the input plus bias. -/
def linearMap (w : List (List ℚ)) (b : List ℚ) (v : List ℚ) : List ℚ := vadd (matVec w v) b

def vmean (v : List ℚ) : ℚ := v.sum / v.length

/-- Biased variance over the normalized dimension, as `nn.LayerNorm` uses. -/
def vvar (v : List ℚ) : ℚ := ((v.map (fun x => (x - vmean v) ^ 2)).sum) / v.length

/-- `nn.LayerNorm(d_model, elementwise_affine=False)` with eps = 1e-5. -/
def layerNorm (P : Primitives) (v : List ℚ) : List ℚ :=
  v.map (fun x => (x - vmean v) / P.qsqrt (vvar v + 1 / 100000))

/-- Parameters of `AdaptiveLayerNorm`: the linear map from the condition to
the concatenated per-channel scale and shift. -/
structure AdaLNParams where
  w : List (List ℚ)
  b : List ℚ

/-- Source `AdaptiveLayerNorm.forward`: normalize, compute
`scale, shift = linear(condition).chunk(2)`, return
`x * (1 + scale) + shift`. -/
def adaLN (P : Primitives) (p : AdaLNParams) (cond x : List ℚ) : List ℚ :=
  let xn := layerNorm P x
  let ss := linearMap p.w p.b cond
  let half := ss.length / 2
  vadd (List.zipWith (fun xi si => xi * (1 + si)) xn (ss.take half)) (ss.drop half)

/-- Parameters of `nn.MultiheadAttention`: the packed in-projection is
split here into query/key/value weights, plus the output projection. -/
structure AttnParams where
  nHeads : Nat
  wq : List (List ℚ)
  bq : List ℚ
  wk : List (List ℚ)
  bk : List ℚ
  wv : List (List ℚ)
  bv : List ℚ
  wo : List (List ℚ)
  bo : List ℚ

/-- One row of causally-masked multi-head self-attention: the query is the
last position of the prefix `pref = x_norm[0..i]`, keys and values range
over the whole prefix. This equals the source's full-sequence attention
under the mask `~create_causal_mask(seq_len)`: additive negative-infinity
masking makes the softmax of row `i` range over positions `0..i` exactly
(masked entries contribute `exp(-inf) = 0` to numerator and denominator). -/
def attnRow (P : Primitives) (ap : AttnParams) (dModel : Nat) (pref : List (List ℚ)) :
    List ℚ :=
  let q := linearMap ap.wq ap.bq (pref.getLast?.getD [])
  let ks := pref.map (linearMap ap.wk ap.bk)
  let vs := pref.map (linearMap ap.wv ap.bv)
  let dh := dModel / ap.nHeads
  let heads := (List.range ap.nHeads).map (fun h =>
    let qh := (q.drop (h * dh)).take dh
    let scores := ks.map (fun kv => dotQ qh ((kv.drop (h * dh)).take dh) / P.qsqrt (dh : ℚ))
    let es := scores.map P.qexp
    let ws := es.map (fun e => e / es.sum)
    (List.range dh).map (fun c =>
      (List.zipWith (fun w vv => w * ((vv.drop (h * dh)).take dh).getD c 0) ws vs).sum))
  linearMap ap.wo ap.bo heads.flatten

/-- Parameters of one `TransformerBlock`. -/
structure BlockParams where
  ln1 : AdaLNParams
  attn : AttnParams
  ln2 : AdaLNParams
  w1 : List (List ℚ)
  b1 : List ℚ
  w2 : List (List ℚ)
  b2 : List ℚ

/-- Source `TransformerBlock.ffn` with dropout inactive: linear, GELU,
linear. -/
def ffn (P : Primitives) (bp : BlockParams) (v : List ℚ) : List ℚ :=
  linearMap bp.w2 bp.b2 ((linearMap bp.w1 bp.b1 v).map P.qgelu)

/-- The attention rows of one block: row `i` is masked attention over the
AdaLN-normalized prefix `0..i`. -/
def blockAttnRows (P : Primitives) (dModel : Nat) (bp : BlockParams) (cond : List ℚ)
    (xs : List (List ℚ)) : List (List ℚ) :=
  (List.range xs.length).map
    (fun i => attnRow P bp.attn dModel ((xs.map (adaLN P bp.ln1 cond)).take (i + 1)))

/-- The residual state after the attention half of a block:
`x = x + attn_out`. -/
def blockAfterAttn (P : Primitives) (dModel : Nat) (bp : BlockParams) (cond : List ℚ)
    (xs : List (List ℚ)) : List (List ℚ) :=
  List.zipWith vadd xs (blockAttnRows P dModel bp cond xs)

/-- Source `TransformerBlock.forward` with dropout inactive: AdaLN then
masked self-attention with residual, then AdaLN, feed-forward and
residual. -/
def blockForward (P : Primitives) (dModel : Nat) (bp : BlockParams) (cond : List ℚ)
    (xs : List (List ℚ)) : List (List ℚ) :=
  List.zipWith vadd (blockAfterAttn P dModel bp cond xs)
    ((blockAfterAttn P dModel bp cond xs).map (fun v => ffn P bp (adaLN P bp.ln2 cond v)))

/-- Parameters of the `VAR` model. `scaleEmb` models `self.scale_embedding`,
which `VAR.__init__` allocates and `_init_weights` initializes; the forward
pass below never reads it, mirroring the source. -/
structure VARParams where
  dModel : Nat
  tokenEmb : Nat → List ℚ
  classEmb : Nat → List ℚ
  scaleEmb : Nat → List ℚ
  posEmb : Nat → List ℚ
  blocks : List BlockParams
  outW : List (List ℚ)
  outB : List ℚ

/-- Source `VAR.forward` (teacher-forced, dropout inactive): per position,
token embedding plus positional embedding; then the block stack under the
causal mask; then the output projection `to_logits`. -/
def varForward (P : Primitives) (vp : VARParams) (tokens : List Nat) (cond : List ℚ) :
    List (List ℚ) :=
  let x0 := (List.range tokens.length).map
    (fun i => vadd (vp.tokenEmb (tokens.getD i 0)) (vp.posEmb i))
  let xe := vp.blocks.foldl (fun xs bp => blockForward P vp.dModel bp cond xs) x0
  xe.map (linearMap vp.outW vp.outB)

/-- Source conditioning of `VAR.forward`: `class_embedding(class_labels)`
when labels are given, else a zero vector of dimension `d_model`. -/
def varCondition (vp : VARParams) (label : Option Nat) : List ℚ :=
  match label with
  | some c => vp.classEmb c
  | none => List.replicate vp.dModel 0

theorem take_eq_of_map {α β : Type} (f : α → β) {xs ys : List α} {n : Nat}
    (h : xs.take n = ys.take n) : (xs.map f).take n = (ys.map f).take n := by
  rw [← List.map_take, ← List.map_take, h]

theorem take_eq_range_map {β : Type} (fx fy : Nat → β) (L n : Nat)
    (h : ∀ i, i < min n L → fx i = fy i) :
    ((List.range L).map fx).take n = ((List.range L).map fy).take n := by
  rw [← List.map_take, ← List.map_take, List.take_range]
  apply List.map_congr_left
  intro i hi
  exact h i (List.mem_range.mp hi)

theorem take_eq_of_zipWith {α β γ : Type} (f : α → β → γ) {a b : List α} {c d : List β}
    {n : Nat} (h1 : a.take n = b.take n) (h2 : c.take n = d.take n) :
    (List.zipWith f a c).take n = (List.zipWith f b d).take n := by
  rw [List.take_zipWith, List.take_zipWith, h1, h2]

theorem take_take_of_le {α : Type} (l : List α) {m n : Nat} (h : m ≤ n) :
    (l.take n).take m = l.take m := by
  rw [List.take_take, min_eq_left h]

theorem getD_take_eq {α : Type} {xs ys : List α} {n : Nat}
    (h : xs.take n = ys.take n) (j : Nat) (hj : j < n) (d : α) :
    xs.getD j d = ys.getD j d := by
  rw [List.getD_eq_getElem?_getD, List.getD_eq_getElem?_getD,
    show xs[j]? = (xs.take n)[j]? by rw [List.getElem?_take, if_pos hj],
    show ys[j]? = (ys.take n)[j]? by rw [List.getElem?_take, if_pos hj], h]

theorem blockAttnRows_take (P : Primitives) (dModel : Nat) (bp : BlockParams)
    (cond : List ℚ) {xs ys : List (List ℚ)} {n : Nat}
    (hlen : xs.length = ys.length) (htake : xs.take n = ys.take n) :
    (blockAttnRows P dModel bp cond xs).take n
      = (blockAttnRows P dModel bp cond ys).take n := by
  unfold blockAttnRows
  rw [← hlen]
  apply take_eq_range_map
  intro i hi
  have hi1 : i + 1 ≤ n := by omega
  congr 1
  have hxn1 := take_eq_of_map (adaLN P bp.ln1 cond) htake
  calc (xs.map (adaLN P bp.ln1 cond)).take (i + 1)
      = ((xs.map (adaLN P bp.ln1 cond)).take n).take (i + 1) :=
        (take_take_of_le _ hi1).symm
    _ = ((ys.map (adaLN P bp.ln1 cond)).take n).take (i + 1) := by rw [hxn1]
    _ = (ys.map (adaLN P bp.ln1 cond)).take (i + 1) := take_take_of_le _ hi1

theorem blockAfterAttn_take (P : Primitives) (dModel : Nat) (bp : BlockParams)
    (cond : List ℚ) {xs ys : List (List ℚ)} {n : Nat}
    (hlen : xs.length = ys.length) (htake : xs.take n = ys.take n) :
    (blockAfterAttn P dModel bp cond xs).take n
      = (blockAfterAttn P dModel bp cond ys).take n := by
  unfold blockAfterAttn
  exact take_eq_of_zipWith vadd htake (blockAttnRows_take P dModel bp cond hlen htake)

theorem blockAfterAttn_length (P : Primitives) (dModel : Nat) (bp : BlockParams)
    (cond : List ℚ) (xs : List (List ℚ)) :
    (blockAfterAttn P dModel bp cond xs).length = xs.length := by
  unfold blockAfterAttn blockAttnRows
  simp

theorem blockForward_take (P : Primitives) (dModel : Nat) (bp : BlockParams)
    (cond : List ℚ) {xs ys : List (List ℚ)} {n : Nat}
    (hlen : xs.length = ys.length) (htake : xs.take n = ys.take n) :
    (blockForward P dModel bp cond xs).take n
      = (blockForward P dModel bp cond ys).take n := by
  unfold blockForward
  have h1 := blockAfterAttn_take P dModel bp cond hlen htake
  exact take_eq_of_zipWith vadd h1
    (take_eq_of_map (fun v => ffn P bp (adaLN P bp.ln2 cond v)) h1)

theorem blockForward_length (P : Primitives) (dModel : Nat) (bp : BlockParams)
    (cond : List ℚ) (xs : List (List ℚ)) :
    (blockForward P dModel bp cond xs).length = xs.length := by
  unfold blockForward
  rw [List.length_zipWith, List.length_map, blockAfterAttn_length]
  simp

theorem foldl_blocks_length (P : Primitives) (dModel : Nat) (cond : List ℚ) :
    ∀ (blocks : List BlockParams) (xs : List (List ℚ)),
      (blocks.foldl (fun a bp => blockForward P dModel bp cond a) xs).length = xs.length
  | [], xs => rfl
  | bp :: rest, xs => by
      rw [List.foldl_cons, foldl_blocks_length P dModel cond rest _,
        blockForward_length]

theorem foldl_blocks_take (P : Primitives) (dModel : Nat) (cond : List ℚ) :
    ∀ (blocks : List BlockParams) (xs ys : List (List ℚ)) (n : Nat),
      xs.length = ys.length → xs.take n = ys.take n →
      (blocks.foldl (fun a bp => blockForward P dModel bp cond a) xs).take n
        = (blocks.foldl (fun a bp => blockForward P dModel bp cond a) ys).take n
  | [], xs, ys, n, _, htake => htake
  | bp :: rest, xs, ys, n, hlen, htake => by
      rw [List.foldl_cons, List.foldl_cons]
      exact foldl_blocks_take P dModel cond rest _ _ n
        (by rw [blockForward_length, blockForward_length, hlen])
        (blockForward_take P dModel bp cond hlen htake)

/-- C1: causal masking correctness of the teacher-forced forward pass (with
dropout inactive): for two token sequences of equal length that agree on
positions `0..i`, the logits of `VAR.forward` agree at every position
`0..i` — logits at position `i` are invariant to any change of the tokens
at positions strictly greater than `i`. Holds for every choice of
parameters, conditioning vector, and scalar primitives. -/
theorem var_forward_causal (P : Primitives) (vp : VARParams) (cond : List ℚ)
    (t1 t2 : List Nat) (i : Nat) (hlen : t1.length = t2.length)
    (hi : i < t1.length) (hpre : t1.take (i + 1) = t2.take (i + 1)) :
    (varForward P vp t1 cond).take (i + 1) = (varForward P vp t2 cond).take (i + 1) := by
  unfold varForward
  apply take_eq_of_map
  have hx0 : ((List.range t1.length).map
        (fun j => vadd (vp.tokenEmb (t1.getD j 0)) (vp.posEmb j))).take (i + 1)
      = ((List.range t2.length).map
        (fun j => vadd (vp.tokenEmb (t2.getD j 0)) (vp.posEmb j))).take (i + 1) := by
    rw [← hlen]
    apply take_eq_range_map
    intro j hj
    have hj1 : j < i + 1 := by omega
    rw [getD_take_eq hpre j hj1]
  apply foldl_blocks_take
  · simp [hlen]
  · exact hx0

/-- Witness for C1 at a concrete one-block model and the token sequences
`[0, 1, 2]` and `[0, 5, 6]`, which agree at position 0 (`i = 0`). -/
theorem var_forward_causal_witness :
    ([0, 1, 2] : List Nat).length = ([0, 5, 6] : List Nat).length ∧
    (0 : Nat) < ([0, 1, 2] : List Nat).length ∧
    ([0, 1, 2] : List Nat).take 1 = ([0, 5, 6] : List Nat).take 1 ∧
    (varForward ⟨fun q => q, fun q => q, fun q => q⟩
        ⟨1, fun t => [(t : ℚ)], fun c => [(c : ℚ)], fun _ => [0], fun p => [(p : ℚ)],
         [⟨⟨[[1], [1]], [0, 0]⟩, ⟨1, [[1]], [0], [[1]], [0], [[1]], [0], [[1]], [0]⟩,
           ⟨[[1], [1]], [0, 0]⟩, [[1]], [0], [[1]], [0]⟩], [[1]], [0]⟩
        [0, 1, 2] [0]).take 1
      = (varForward ⟨fun q => q, fun q => q, fun q => q⟩
        ⟨1, fun t => [(t : ℚ)], fun c => [(c : ℚ)], fun _ => [0], fun p => [(p : ℚ)],
         [⟨⟨[[1], [1]], [0, 0]⟩, ⟨1, [[1]], [0], [[1]], [0], [[1]], [0], [[1]], [0]⟩,
           ⟨[[1], [1]], [0, 0]⟩, [[1]], [0], [[1]], [0]⟩], [[1]], [0]⟩
        [0, 5, 6] [0]).take 1 :=
  ⟨rfl, by decide, rfl,
   var_forward_causal ⟨fun q => q, fun q => q, fun q => q⟩
     ⟨1, fun t => [(t : ℚ)], fun c => [(c : ℚ)], fun _ => [0], fun p => [(p : ℚ)],
      [⟨⟨[[1], [1]], [0, 0]⟩, ⟨1, [[1]], [0], [[1]], [0], [[1]], [0], [[1]], [0]⟩,
        ⟨[[1], [1]], [0, 0]⟩, [[1]], [0], [[1]], [0]⟩], [[1]], [0]⟩
     [0] [0, 1, 2] [0, 5, 6] 0 rfl (by decide) rfl⟩

/-- C9 exhibit: `VAR.forward` never reads `self.scale_embedding` — the
logits are invariant under every change of the scale-embedding table with
all other parameters, tokens and class label fixed (the table is allocated
and initialized by `VAR.__init__` but unused by the forward pass). -/
theorem scale_embedding_unused (P : Primitives) (vp : VARParams)
    (scaleEmb1 scaleEmb2 : Nat → List ℚ) (tokens : List Nat) (label : Option Nat) :
    varForward P { vp with scaleEmb := scaleEmb1 } tokens
        (varCondition { vp with scaleEmb := scaleEmb1 } label)
      = varForward P { vp with scaleEmb := scaleEmb2 } tokens
        (varCondition { vp with scaleEmb := scaleEmb2 } label) := rfl
